import Mathlib

set_option maxRecDepth 10000

/-!
Verification of the castor agent engine (Go) against its specification.

Each Go function referenced by a claim is shallowly embedded as an
executable Lean definition, translated from the Go source:

* `pkg/tools/edit/edit.go`   — the `replace` edit tool (hash guard and the
  exact / flexible / fixer strategies);
* `pkg/fs` (`src/unnamed/part_008`) — `ensureInWorkspace` sandbox check;
* `pkg/llm/types.go`         — message model and JSON (un)marshalling of parts;
* `pkg/agent/session.go`     — session save / load;
* `pkg/llm/openai/client.go` — wire serialization and SSE tool-call reassembly;
* `pkg/agent` (`src/unnamed/part_005`) — `Agent.Chat` reason-act loop;
* `pkg/agent/investigator.go` — `Investigator.Investigate` and `ReportTool`.

Go strings are modelled as `List Char` (named `Str`).  Go byte strings and
rune strings coincide on the inputs considered here (valid UTF-8 is
self-synchronizing, so occurrences of a valid non-empty pattern always fall
on rune boundaries).  Machine words in SHA-256 are `Nat` reduced modulo
`2 ^ 32`.  External collaborators (the LLM provider, `encoding/json` of the
Go standard library, the file system) appear as explicit oracle parameters;
everything else is translated from the repository source.
-/

/-- Decidable equality for `Except`, written with explicit matches so that
it evaluates under `decide`. -/
instance instDecEqExcept {ε α : Type _} [DecidableEq ε] [DecidableEq α] :
    DecidableEq (Except ε α) := fun x y =>
  match x, y with
  | .ok a, .ok b =>
    match decEq a b with
    | isTrue h => isTrue (h ▸ rfl)
    | isFalse h => isFalse (fun hh => h (Except.ok.inj hh))
  | .ok _, .error _ => isFalse (fun hh => Except.noConfusion hh)
  | .error _, .ok _ => isFalse (fun hh => Except.noConfusion hh)
  | .error a, .error b =>
    match decEq a b with
    | isTrue h => isTrue (h ▸ rfl)
    | isFalse h => isFalse (fun hh => h (Except.error.inj hh))

namespace Castor

/-- Go strings, modelled as their list of runes. -/
abbrev Str := List Char

/-- Shorthand turning a Lean string literal into a `Str`. -/
def strL (s : String) : Str := s.toList

/-! ## Go `strings` helpers (package `strings`), as used by the edit tool -/

/-- First index at which `sub` occurs in `s` (Go `strings.Index`), for a
non-empty `sub`; `none` when `sub` does not occur. -/
def findSub : Str → Str → Option Nat
  | _, [] => some 0
  | [], _ => none
  | c :: rest, sub =>
    if sub.isPrefixOf (c :: rest) then some 0
    else (findSub rest sub).map (· + 1)

/-- Counting loop for `goCount`; the fuel argument only drives structural
recursion (each step consumes at least one character, so `s.length + 1`
fuel is always enough for a non-empty `sub`). -/
def goCountAux (sub : Str) : Nat → Str → Nat
  | 0, _ => 0
  | fuel + 1, s =>
    match findSub s sub with
    | none => 0
    | some i => 1 + goCountAux sub fuel (s.drop (i + sub.length))

/-- Go `strings.Count s sub`: number of non-overlapping occurrences of
`sub` in `s`; for an empty `sub` it returns `1 + (number of runes of s)`,
exactly as the Go function does. -/
def goCount (s sub : Str) : Nat :=
  match sub with
  | [] => s.length + 1
  | _ => goCountAux sub (s.length + 1) s

/-- Go `strings.Replace s old new 1`: replace the first occurrence of `old`
by `new`; when `old` is empty, `new` is inserted at the front; when `old`
does not occur, `s` is returned unchanged. -/
def replaceOnce (s old new : Str) : Str :=
  match old with
  | [] => new ++ s
  | _ =>
    match findSub s old with
    | none => s
    | some i => s.take i ++ new ++ s.drop (i + old.length)

/-- Whitespace per Go `unicode.IsSpace` (the code points relevant here):
`\t \n \v \f \r`, space, NEL (U+0085) and NBSP (U+00A0).  Used by
`strings.Fields` and `strings.TrimSpace`. -/
def isSpaceGo (c : Char) : Bool :=
  c.toNat = 9 ∨ c.toNat = 10 ∨ c.toNat = 11 ∨ c.toNat = 12 ∨ c.toNat = 13 ∨
  c.toNat = 32 ∨ c.toNat = 0x85 ∨ c.toNat = 0xA0

/-- Whitespace matched by the RE2 class `\s` used in the flexible-match
regular expression: `[\t\n\f\r ]`.  Note that `\v` (11) and the non-ASCII
spaces are matched by `unicode.IsSpace` but NOT by `\s`. -/
def isSpaceRe (c : Char) : Bool :=
  c.toNat = 9 ∨ c.toNat = 10 ∨ c.toNat = 12 ∨ c.toNat = 13 ∨ c.toNat = 32

/-- Splitting loop for `goFields` (fuel-driven structural recursion; every
step consumes at least one character). -/
def goFieldsAux : Nat → Str → List Str
  | 0, _ => []
  | fuel + 1, s =>
    match s with
    | [] => []
    | c :: rest =>
      if isSpaceGo c then goFieldsAux fuel rest
      else
        (c :: rest).takeWhile (fun x => ¬ isSpaceGo x) ::
          goFieldsAux fuel ((c :: rest).dropWhile (fun x => ¬ isSpaceGo x))

/-- Go `strings.Fields`: maximal runs of non-whitespace characters. -/
def goFields (s : Str) : List Str :=
  goFieldsAux s.length s

/-- Go `strings.TrimSpace` (drop `unicode.IsSpace` from both ends). -/
def trimSpaceGo (s : Str) : Str :=
  ((s.dropWhile isSpaceGo).reverse.dropWhile isSpaceGo).reverse

/-! ## SHA-256 (`crypto/sha256` + `encoding/hex`), bytes as `Nat < 256`,
words as `Nat` reduced modulo `2 ^ 32` -/

/-- UTF-8 encoding of one character (RFC 3629), bytes as `Nat`. -/
def utf8EncodeChar (c : Char) : List Nat :=
  let n := c.toNat
  if n < 0x80 then [n]
  else if n < 0x800 then [0xC0 + n / 0x40, 0x80 + n % 0x40]
  else if n < 0x10000 then
    [0xE0 + n / 0x1000, 0x80 + (n / 0x40) % 0x40, 0x80 + n % 0x40]
  else
    [0xF0 + n / 0x40000, 0x80 + (n / 0x1000) % 0x40,
     0x80 + (n / 0x40) % 0x40, 0x80 + n % 0x40]

/-- UTF-8 encoding of a string (Go `[]byte(s)`). -/
def utf8Encode (s : Str) : List Nat := s.flatMap utf8EncodeChar

/-- Right rotation of a 32-bit word. -/
def rotr32 (n x : Nat) : Nat := ((x >>> n) + ((x % 2 ^ n) <<< (32 - n))) % 2 ^ 32

/-- SHA-256 round constants (the fractional parts of the cube roots of
the first 64 primes, scaled to 32 bits; written in decimal). -/
def sha256K : List Nat :=
  [1116352408, 1899447441, 3049323471, 3921009573, 961987163, 1508970993,
   2453635748, 2870763221, 3624381080, 310598401, 607225278, 1426881987,
   1925078388, 2162078206, 2614888103, 3248222580, 3835390401, 4022224774,
   264347078, 604807628, 770255983, 1249150122, 1555081692, 1996064986,
   2554220882, 2821834349, 2952996808, 3210313671, 3336571891, 3584528711,
   113926993, 338241895, 666307205, 773529912, 1294757372, 1396182291,
   1695183700, 1986661051, 2177026350, 2456956037, 2730485921, 2820302411,
   3259730800, 3345764771, 3516065817, 3600352804, 4094571909, 275423344,
   430227734, 506948616, 659060556, 883997877, 958139571, 1322822218,
   1537002063, 1747873779, 1955562222, 2024104815, 2227730452, 2361852424,
   2428436474, 2756734187, 3204031479, 3329325298]

/-- SHA-256 initial hash state (fractional parts of the square roots of
the first 8 primes, scaled to 32 bits; written in decimal). -/
def sha256H0 : List Nat :=
  [1779033703, 3144134277, 1013904242, 2773480762,
   1359893119, 2600822924, 528734635, 1541459225]

/-- Big-endian bytes of a 64-bit length. -/
def be64 (n : Nat) : List Nat :=
  [(n >>> 56) % 256, (n >>> 48) % 256, (n >>> 40) % 256, (n >>> 32) % 256,
   (n >>> 24) % 256, (n >>> 16) % 256, (n >>> 8) % 256, n % 256]

/-- SHA-256 padding: append `0x80`, zeros to 56 mod 64, and the bit length. -/
def sha256pad (msg : List Nat) : List Nat :=
  let L := msg.length
  let padZeros := (64 + 55 - L % 64) % 64
  msg ++ 0x80 :: List.replicate padZeros 0 ++ be64 (8 * L)

/-- Split a byte list into 64-byte blocks (fuel-driven for evaluability). -/
def chunks64 : Nat → List Nat → List (List Nat)
  | 0, _ => []
  | _, [] => []
  | fuel + 1, l => l.take 64 :: chunks64 fuel (l.drop 64)

/-- Read `k` big-endian 32-bit words from a byte list. -/
def words32 : Nat → List Nat → List Nat
  | 0, _ => []
  | k + 1, l =>
    (((l.getD 0 0 * 256 + l.getD 1 0) * 256 + l.getD 2 0) * 256 + l.getD 3 0)
      :: words32 k (l.drop 4)

/-- Message-schedule extension: grow the 16 words of a block to 64. -/
def sha256extend : Nat → List Nat → List Nat
  | 0, w => w
  | fuel + 1, w =>
    let i := w.length
    let w15 := w.getD (i - 15) 0
    let w2 := w.getD (i - 2) 0
    let s0 := (rotr32 7 w15).xor ((rotr32 18 w15).xor (w15 >>> 3))
    let s1 := (rotr32 17 w2).xor ((rotr32 19 w2).xor (w2 >>> 10))
    let next := (w.getD (i - 16) 0 + s0 + w.getD (i - 7) 0 + s1) % 2 ^ 32
    sha256extend fuel (w ++ [next])

/-- One SHA-256 compression round. -/
def sha256round (st : List Nat) (kw : Nat × Nat) : List Nat :=
  let a := st.getD 0 0
  let b := st.getD 1 0
  let c := st.getD 2 0
  let d := st.getD 3 0
  let e := st.getD 4 0
  let f := st.getD 5 0
  let g := st.getD 6 0
  let h := st.getD 7 0
  let S1 := (rotr32 6 e).xor ((rotr32 11 e).xor (rotr32 25 e))
  let ch := (e.land f).xor ((e.xor 0xffffffff).land g)
  let temp1 := (h + S1 + ch + kw.1 + kw.2) % 2 ^ 32
  let S0 := (rotr32 2 a).xor ((rotr32 13 a).xor (rotr32 22 a))
  let maj := (a.land b).xor ((a.land c).xor (b.land c))
  let temp2 := (S0 + maj) % 2 ^ 32
  [(temp1 + temp2) % 2 ^ 32, a, b, c, (d + temp1) % 2 ^ 32, e, f, g]

/-- Compress one 64-byte block into the running state. -/
def sha256compress (st : List Nat) (block : List Nat) : List Nat :=
  let w := sha256extend 48 (words32 16 block)
  let fin := (sha256K.zip w).foldl sha256round st
  (st.zip fin).map (fun p => (p.1 + p.2) % 2 ^ 32)

/-- SHA-256 state after hashing a byte message. -/
def sha256words (msg : List Nat) : List Nat :=
  let padded := sha256pad msg
  (chunks64 (padded.length) padded).foldl sha256compress sha256H0

/-- Lowercase hex digits of a 32-bit word. -/
def hexWord32 (n : Nat) : List Char :=
  let dig := fun (k : Nat) => (strL "0123456789abcdef").getD (k % 16) '0'
  [dig (n >>> 28), dig (n >>> 24), dig (n >>> 20), dig (n >>> 16),
   dig (n >>> 12), dig (n >>> 8), dig (n >>> 4), dig n]

/-- Go `hex.EncodeToString(hasher.Sum(nil))`: the lowercase-hex SHA-256
digest of a byte message. -/
def sha256hexBytes (msg : List Nat) : String :=
  String.mk ((sha256words msg).flatMap hexWord32)

/-- Digest of a Go string (the edit tool hashes the raw file bytes). -/
def sha256hexStr (s : Str) : String := sha256hexBytes (utf8Encode s)

/-! ## Paths (`path/filepath`, Unix rules), as used by the sandbox checks -/

/-- Go `filepath.IsAbs` on Unix. -/
def isAbsPath (p : Str) : Bool :=
  match p with
  | '/' :: _ => true
  | _ => false

/-- Splitting a path at every slash (the component view used by
`filepath.Clean`). -/
def splitSlash : Str → Str → List Str
  | [], cur => [cur.reverse]
  | c :: rest, cur =>
    if c = '/' then cur.reverse :: splitSlash rest []
    else splitSlash rest (c :: cur)

/-- Joining path components with single slashes. -/
def joinSlash : List Str → Str
  | [] => []
  | [x] => x
  | x :: y :: rest => x ++ '/' :: joinSlash (y :: rest)

/-- Go `filepath.Clean` on Unix: purely lexical processing that squeezes
slashes, removes `.` components, resolves `..` against preceding
components (dropping `..` at the root, keeping leading `..` of relative
paths), and returns `.` for an emptied relative path.  Symbolic links are
NOT resolved — `Clean` is string rewriting only. -/
def cleanPath (p : Str) : Str :=
  let rooted := isAbsPath p
  let comps := (splitSlash p []).filter (fun c => c ≠ [] ∧ c ≠ strL ".")
  let out := comps.foldl (fun acc c =>
    if c = strL ".." then
      match acc.getLast? with
      | some l => if l = strL ".." then acc ++ [strL ".."] else acc.dropLast
      | none => if rooted then [] else [strL ".."]
    else acc ++ [c]) []
  if rooted then '/' :: joinSlash out
  else if out = [] then strL "." else joinSlash out

/-- Go `filepath.Join a b` for non-empty components: concatenate with a
slash and `Clean` the result. -/
def joinPath (a b : Str) : Str :=
  if a = [] then cleanPath b
  else if b = [] then cleanPath a
  else cleanPath (a ++ '/' :: b)

/-- Go `filepath.Abs`: `Clean` an absolute path, otherwise join onto the
current working directory (passed explicitly; assumed absolute). -/
def absPath (cwd p : Str) : Str :=
  if isAbsPath p then cleanPath p else joinPath cwd p

/-- Embeds `ensureInWorkspace` of the fs tools (`src/unnamed/part_008`,
lines 18-37): resolve the target lexically (absolute targets are only
`Clean`ed, relative ones are `Join`ed under the absolute root) and grant
access when the absolute root is a string prefix of the resolved target
(Go `strings.HasPrefix`). -/
def ensureInWorkspace (cwd root target : Str) : Except String Str :=
  let absRoot := absPath cwd root
  let absTarget := if isAbsPath target then cleanPath target else joinPath absRoot target
  if absRoot.isPrefixOf absTarget then .ok absTarget
  else .error ("access denied: path " ++ String.mk target ++
    " is outside workspace " ++ String.mk root)

/-- Embeds the inline sandbox check of `EditTool.Execute`
(`pkg/tools/edit/edit.go`, lines 71-75): the caller path — absolute or not
— is `filepath.Join`ed under the absolute root, then the root must be a
string prefix of the result. -/
def editTargetPath (cwd root pathStr : Str) : Except String Str :=
  let absRoot := absPath cwd root
  let targetPath := joinPath absRoot pathStr
  if absRoot.isPrefixOf targetPath then .ok targetPath
  else .error "access denied: path outside workspace"

/-- The lexical resolution `ensureInWorkspace` computes for a target:
absolute targets are `Clean`ed, relative targets are `Join`ed under the
absolute root.  `..` is resolved lexically; symbolic links are not. -/
def lexResolve (cwd root target : Str) : Str :=
  if isAbsPath target then cleanPath target else joinPath (absPath cwd root) target

/-- Canonical containment as the specification states it: the resolved
path is the root itself or lies strictly below it (a path-component
prefix, not a mere string prefix). -/
def pathUnder (root p : Str) : Prop :=
  p = root ∨ (root ++ strL "/").isPrefixOf p

instance (root p : Str) : Decidable (pathUnder root p) := by
  unfold pathUnder; infer_instance

/-! ## The edit tool (`pkg/tools/edit/edit.go`) -/

/-- Matching one flexible pattern — the regex built by `tryFlexible` from
the whitespace-separated tokens of `old_string` (each token
`regexp.QuoteMeta`-escaped, joined by `\s+`) — at the head of `s`.
Because tokens contain no whitespace, RE2 matching of this pattern is
deterministic: each token must match literally and each separator consumes
a maximal non-empty run of `\s` characters.  Returns the matched length. -/
def matchToks : List Str → Str → Option Nat
  | [], _ => some 0
  | [t], s => if t.isPrefixOf s then some t.length else none
  | t :: t2 :: rest, s =>
    if t.isPrefixOf s then
      let s1 := s.drop t.length
      let k := (s1.takeWhile isSpaceRe).length
      if k = 0 then none
      else (matchToks (t2 :: rest) (s1.drop k)).map (fun m => t.length + k + m)
    else none

/-- Scanning loop for `findAllFlex` (fuel-driven; each step consumes at
least one character). -/
def findAllFlexAux (toks : List Str) : Nat → Str → Nat → List (Nat × Nat)
  | 0, _, _ => []
  | fuel + 1, s, pos =>
    match matchToks toks s with
    | some k =>
      if k = 0 then []
      else (pos, k) :: findAllFlexAux toks fuel (s.drop k) (pos + k)
    | none =>
      match s with
      | [] => []
      | _ :: s2 => findAllFlexAux toks fuel s2 (pos + 1)

/-- Go `re.FindAllStringIndex(content, -1)` for the flexible pattern:
leftmost, non-overlapping matches as `(start, length)` pairs. -/
def findAllFlex (toks : List Str) (s : Str) : List (Nat × Nat) :=
  findAllFlexAux toks (s.length + 1) s 0

/-- Embeds `EditTool.tryExact` (lines 116-122): replace iff `old` occurs
literally exactly once; `some` carries the written file content (the
`write` helper is modelled as succeeding). -/
def tryExact (content old new : Str) : Option Str :=
  if goCount content old = 1 then some (replaceOnce content old new) else none

/-- Embeds `EditTool.tryFlexible` (lines 124-152): tokenize `old` with
`strings.Fields`, bail out on an empty token list, and splice `new` over
the unique flexible match if there is exactly one.  (The generated pattern
always compiles, so the `regexp.Compile` error branch is dead.) -/
def tryFlexible (content old new : Str) : Option Str :=
  match goFields old with
  | [] => none
  | t :: ts =>
    match findAllFlex (t :: ts) content with
    | [(start, len)] => some (content.take start ++ new ++ content.drop (start + len))
    | _ => none

/-- Result of the provider-backed fixer call `runFixer` (lines 158-199):
`none` models a nil `Provider`; `some (.error e)` a provider or stream
error; `some (.ok raw)` the concatenated streamed text, to which
`runFixer` applies `strings.TrimSpace` before returning.  The provider is
an external collaborator, hence an oracle parameter. -/
abbrev FixerOracle := Option (Except String Str)

/-- Not-found error returned when every strategy fails (line 113). -/
def editNotFoundErr : String := "old_string not found (tried exact, flexible, and fixer)"

/-- Embeds `EditTool.Execute` from the hash guard onward (lines 83-114):
the optional hash guard, then the exact, flexible and fixer strategies in
order.  `content` is the file's current bytes; an `.ok (msg, c)` result
means the file was rewritten to `c`, an `.error` result means no write
happened. -/
def editReplaceCore (content old new : Str) (expectedHash : String)
    (fixer : FixerOracle) : Except String (String × Str) :=
  if expectedHash ≠ "" ∧ sha256hexStr content ≠ expectedHash then
    .error ("file content has changed (hash mismatch). Expected " ++ expectedHash ++
      ", got " ++ sha256hexStr content ++ ". Please re-read the file.")
  else
    match tryExact content old new with
    | some c => .ok ("Successfully replaced text (exact match).", c)
    | none =>
      match tryFlexible content old new with
      | some c => .ok ("Successfully replaced text (flexible match).", c)
      | none =>
        match fixer with
        | some (.ok raw) =>
          let fixedOldStr := trimSpaceGo raw
          if fixedOldStr ≠ [] ∧ fixedOldStr ≠ old then
            match tryExact content fixedOldStr new with
            | some c => .ok ("Successfully replaced text (auto-corrected old_string).", c)
            | none => .error editNotFoundErr
          else .error editNotFoundErr
        | _ => .error editNotFoundErr

/-- Arguments of the `replace` tool as `Execute` extracts them: a `none`
field models a key that is absent or not a string (Go `args[k].(string)`
with the `ok` flag).  `expected_hash` is read without an `ok` check, so an
absent or non-string value yields the empty string. -/
structure EditArgs where
  path : Option String
  old_string : Option String
  new_string : Option String
  expected_hash : Option String

/-- Embeds `EditTool.Execute` (lines 54-114) end to end: argument
extraction, the inline sandbox check, then `editReplaceCore` on the file
content read from disk (passed in, the read being assumed to succeed). -/
def editExecute (cwd root : Str) (args : EditArgs) (content : Str)
    (fixer : FixerOracle) : Except String (String × Str) :=
  match args.path with
  | none => .error "missing path"
  | some p =>
    match args.old_string with
    | none => .error "missing old_string"
    | some o =>
      match args.new_string with
      | none => .error "missing new_string"
      | some n =>
        let expectedHash := (args.expected_hash).getD ""
        match editTargetPath cwd root (strL p) with
        | .error e => .error e
        | .ok _ => editReplaceCore content (strL o) (strL n) expectedHash fixer

/-! ## Message model (`pkg/llm/types.go`) -/

/-- JSON-representable values, the image of `encoding/json` decoding into
`interface{}` (numbers are modelled as integers; their exact carrier is
irrelevant to the claims). -/
inductive Json where
  | null
  | bool (b : Bool)
  | num (n : Int)
  | str (s : String)
  | arr (xs : List Json)
  | obj (fields : List (String × Json))

/-- A tool-argument mapping `map[string]interface{}`, modelled as an
association list. -/
abbrev ArgsMap := List (String × Json)

/-- Go `llm.Role` is a string type; the four constants follow. -/
abbrev Role := String

/-- Constant `llm.RoleUser`. -/
def RoleUser : Role := "user"

/-- Constant `llm.RoleModel`. -/
def RoleModel : Role := "model"

/-- Constant `llm.RoleSystem`. -/
def RoleSystem : Role := "system"

/-- Constant `llm.RoleTool`. -/
def RoleTool : Role := "tool"

/-- Go `llm.TextPart`. -/
structure TextPart where
  text : String

/-- Go `llm.ToolCallPart`. -/
structure ToolCallPart where
  id : String
  name : String
  args : ArgsMap

/-- Go `llm.ToolResponsePart`. -/
structure ToolResponsePart where
  id : String
  name : String
  content : String

/-- A value of the Go marker interface `llm.Part`.  The repository defines
exactly three implementations; `other` stands for a value of any further
dynamic type implementing the open interface (its Go type name recorded
for the `%T` error message of `MarshalJSON`). -/
inductive Part where
  | text (p : TextPart)
  | toolCall (p : ToolCallPart)
  | toolResp (p : ToolResponsePart)
  | other (typeName : String)

/-- Go `llm.Message`. -/
structure Message where
  role : Role
  content : List Part

/-- Go `partWrapper` (`types.go` lines 55-60): the tagged wire form of one
part; a `none` payload models an absent (`nil`) pointer field. -/
structure PartWrapper where
  type : String
  text : Option TextPart
  toolCall : Option ToolCallPart
  toolResp : Option ToolResponsePart

/-- One message as serialized by `Message.MarshalJSON`: the role and the
wrapped parts.  The JSON text layer itself is Go `encoding/json` over
exactly these fields and is treated as faithful transport. -/
structure WireMessage where
  role : Role
  content : List PartWrapper

/-- Embeds the `switch v := p.(type)` of `Message.MarshalJSON` (lines
66-75): wrap a known part, or fail on any other dynamic type. -/
def marshalPart : Part → Except String PartWrapper
  | .text p => .ok ⟨"text", some p, none, none⟩
  | .toolCall p => .ok ⟨"tool_call", none, some p, none⟩
  | .toolResp p => .ok ⟨"tool_resp", none, none, some p⟩
  | .other typeName => .error ("unknown part type: " ++ typeName)

/-- The part loop of `Message.MarshalJSON`: wrap parts in order, aborting
with the first unknown-type error. -/
def marshalParts : List Part → Except String (List PartWrapper)
  | [] => .ok []
  | p :: ps =>
    match marshalPart p with
    | .error e => .error e
    | .ok w =>
      match marshalParts ps with
      | .error e => .error e
      | .ok ws => .ok (w :: ws)

/-- Embeds `Message.MarshalJSON` (lines 62-84). -/
def marshalMessage (m : Message) : Except String WireMessage :=
  match marshalParts m.content with
  | .error e => .error e
  | .ok ws => .ok ⟨m.role, ws⟩

/-- Embeds the `switch p.Type` of `Message.UnmarshalJSON` (lines 102-117):
decode one wrapper, yielding `none` — the entry is skipped — when the type
tag is unknown or the matching payload pointer is `nil`. -/
def decodePart (w : PartWrapper) : Option Part :=
  if w.type = "text" then w.text.map Part.text
  else if w.type = "tool_call" then w.toolCall.map Part.toolCall
  else if w.type = "tool_resp" then w.toolResp.map Part.toolResp
  else none

/-- Embeds `Message.UnmarshalJSON` (lines 86-119) on a structurally valid
wrapper (ill-formed JSON text is rejected earlier by `encoding/json`):
note it is total — undecodable entries are dropped, never reported. -/
def unmarshalMessage (w : WireMessage) : Message :=
  ⟨w.role, w.content.filterMap decodePart⟩

/-- Structural well-formedness of one wrapper entry: a known tag with its
matching payload present. -/
def wellFormedWrapper (w : PartWrapper) : Prop :=
  (w.type = "text" ∧ w.text.isSome) ∨
  (w.type = "tool_call" ∧ w.toolCall.isSome) ∨
  (w.type = "tool_resp" ∧ w.toolResp.isSome)

/-! ## Session persistence (`pkg/agent/session.go`) -/

/-- Go `agent.Session` (the saved state). -/
structure Session where
  system_prompt : String
  history : List Message

/-- The session file's content at the wrapper level. -/
structure WireSession where
  system_prompt : String
  history : List WireMessage

/-- The message loop implicit in `json.MarshalIndent(session)`: each
history message is marshalled by `Message.MarshalJSON`, the first error
aborting the save. -/
def marshalHistory : List Message → Except String (List WireMessage)
  | [] => .ok []
  | m :: ms =>
    match marshalMessage m with
    | .error e => .error e
    | .ok w =>
      match marshalHistory ms with
      | .error e => .error e
      | .ok ws => .ok (w :: ws)

/-- Embeds `Agent.SaveSession` (lines 18-30): the produced file holds the
system prompt and the marshalled history (file I/O assumed to succeed). -/
def saveSession (s : Session) : Except String WireSession :=
  match marshalHistory s.history with
  | .error e => .error e
  | .ok ws => .ok ⟨s.system_prompt, ws⟩

/-- Embeds `Agent.LoadSession` (lines 33-47) on a well-saved file: the
agent's prompt and history are replaced by the decoded session. -/
def loadSession (w : WireSession) : Session :=
  ⟨w.system_prompt, w.history.map unmarshalMessage⟩

/-! ## Wire serialization of the history (`pkg/llm/openai/client.go`,
`GenerateContent` lines 94-132) -/

/-- Go `openAIToolCall` (nested `Function` struct flattened). -/
structure OpenAIToolCall where
  id : String
  type : String
  name : String
  arguments : String

/-- Go `openAIMessage`. -/
structure OpenAIMessage where
  role : String
  content : String
  tool_calls : List OpenAIToolCall
  tool_call_id : String

/-- Go `strings.Join(parts, "\x5Cn")` as used for `msg.Content`. -/
def goJoinNL : List String → String
  | [] => ""
  | [x] => x
  | x :: y :: rest => x ++ "\n" ++ goJoinNL (y :: rest)

/-- The part loop of `GenerateContent`'s serialization (lines 102-124),
accumulating content fragments, converted tool calls, and the (last
written) `tool_call_id`.  `enc` stands for `json.Marshal` of an argument
map.  A part of unknown dynamic type is skipped (the `switch` has no
default case). -/
def serializeParts (enc : ArgsMap → String) :
    List Part → List String × List OpenAIToolCall × String
  | [] => ([], [], "")
  | p :: ps =>
    let (cs, tcs, tid) := serializeParts enc ps
    match p with
    | .text t => (t.text :: cs, tcs, tid)
    | .toolCall v => (cs, ⟨v.id, "function", v.name, enc v.args⟩ :: tcs, tid)
    | .toolResp v => (v.content :: cs, tcs, if tid = "" then v.id else tid)
    | .other _ => (cs, tcs, tid)

/-- One history message as sent on the wire (lines 95-131): the role is
carried over verbatim by `Role: string(m.Role)`. -/
def serializeMessage (enc : ArgsMap → String) (m : Message) : OpenAIMessage :=
  let (cs, tcs, tid) := serializeParts enc m.content
  ⟨m.role, goJoinNL cs, tcs, tid⟩

/-- The `messages` array of the wire request. -/
def serializeHistory (enc : ArgsMap → String) (h : List Message) : List OpenAIMessage :=
  h.map (serializeMessage enc)

/-! ## SSE tool-call reassembly (`pkg/llm/openai/client.go`, stream
goroutine lines 191-266) -/

/-- Go `toolCallChunk`: one tool-call fragment of a delta (nested
`Function` struct flattened). -/
structure ToolCallChunk where
  index : Int
  id : String
  name : String
  arguments : String
deriving DecidableEq

/-- The `choices[0].delta` payload of one SSE data frame together with its
`finish_reason` (frames without choices are skipped before this point, and
the JSON/SSE text layers are `encoding/json` and `bufio`). -/
structure DeltaChoice where
  content : String
  tool_calls : List ToolCallChunk
  finish_reason : String
deriving DecidableEq

/-- Go `pendingToolCall` (the `Index` field, never read, is the key of the
pending map and is kept alongside). -/
structure PendingToolCall where
  id : String
  name : String
  args : String

/-- Events observable on the stream channel relevant to reassembly. -/
inductive SSEEvent where
  | delta (s : String)
  | toolCalls (cs : List ToolCallPart)

/-- Fragment application (lines 236-244): non-empty id and name fields
overwrite, non-empty argument fragments append to the buffer. -/
def applyChunk (p : PendingToolCall) (tc : ToolCallChunk) : PendingToolCall :=
  { id := if tc.id ≠ "" then tc.id else p.id
    name := if tc.name ≠ "" then tc.name else p.name
    args := if tc.arguments ≠ "" then p.args ++ tc.arguments else p.args }

/-- One fragment folded into the pending map (lines 229-245).  The Go map
`pendingCalls` is modelled as an association list in first-insertion
order (Go map iteration order is unspecified; the claims are about which
calls are emitted, not their order). -/
def updChunk (st : List (Int × PendingToolCall)) (tc : ToolCallChunk) :
    List (Int × PendingToolCall) :=
  if (st.lookup tc.index).isSome then
    st.map (fun e => if e.1 = tc.index then (e.1, applyChunk e.2 tc) else e)
  else st ++ [(tc.index, applyChunk ⟨"", "", ""⟩ tc)]

/-- Finalization of one pending call (lines 249-258): parse the argument
buffer as JSON — `parse` stands for `json.Unmarshal` into a map, `none`
being a parse failure that leaves the `nil` map — and fall back to the
empty mapping. -/
def finalizePending (parse : String → Option ArgsMap) (p : PendingToolCall) :
    ToolCallPart :=
  ⟨p.id, p.name, if p.args = "" then [] else (parse p.args).getD []⟩

/-- Processing of one delta (lines 221-265): emit non-empty content as a
text event, fold the fragments into the pending map, and on a finishing
reason emit the finalized batch (if non-empty) and clear the state. -/
def stepDelta (parse : String → Option ArgsMap)
    (st : List (Int × PendingToolCall)) (d : DeltaChoice) :
    List (Int × PendingToolCall) × List SSEEvent :=
  if d.finish_reason = "tool_calls" ∨ d.finish_reason = "stop" then
    ([],
     (if d.content ≠ "" then [SSEEvent.delta d.content] else []) ++
       (if ((d.tool_calls.foldl updChunk st).map
            (fun e => finalizePending parse e.2)).isEmpty then []
        else [SSEEvent.toolCalls ((d.tool_calls.foldl updChunk st).map
            (fun e => finalizePending parse e.2))]))
  else (d.tool_calls.foldl updChunk st,
        if d.content ≠ "" then [SSEEvent.delta d.content] else [])

/-- The scanner loop over a sequence of deltas (state threaded through
`stepDelta`, events concatenated in order). -/
def processDeltas (parse : String → Option ArgsMap) :
    List DeltaChoice → List (Int × PendingToolCall) →
    List (Int × PendingToolCall) × List SSEEvent
  | [], st => (st, [])
  | d :: ds, st =>
    ((processDeltas parse ds (stepDelta parse st d).1).1,
     (stepDelta parse st d).2 ++ (processDeltas parse ds (stepDelta parse st d).1).2)

/-- Projection keeping only tool-calls events. -/
def toolCallsEventsOf (evs : List SSEEvent) : List (List ToolCallPart) :=
  evs.filterMap (fun e => match e with | .toolCalls cs => some cs | _ => none)

/-- Indices of a fragment sequence in order of first occurrence (the
specification-side view of the pending map's key set). -/
def occIndices (l : List Int) : List Int :=
  l.foldl (fun acc i => if i ∈ acc then acc else acc ++ [i]) []

/-- Specification-side reconstruction of the id for index `i`: the last
non-empty id fragment carried by a chunk of that index. -/
def specId (cs : List ToolCallChunk) (i : Int) : String :=
  ((((cs.filter (fun c => c.index = i)).map (fun c => c.id)).filter
    (fun s => s ≠ "")).getLast?).getD ""

/-- Specification-side reconstruction of the name for index `i`. -/
def specName (cs : List ToolCallChunk) (i : Int) : String :=
  ((((cs.filter (fun c => c.index = i)).map (fun c => c.name)).filter
    (fun s => s ≠ "")).getLast?).getD ""

/-- Specification-side reconstruction of the argument buffer for index
`i`: the concatenation, in stream order, of that index's fragments. -/
def specArgs (cs : List ToolCallChunk) (i : Int) : String :=
  ((cs.filter (fun c => c.index = i)).map (fun c => c.arguments)).foldl (· ++ ·) ""

/-- Specification-side reconstruction of the pending call for index `i`. -/
def specPending (cs : List ToolCallChunk) (i : Int) : PendingToolCall :=
  ⟨specId cs i, specName cs i, specArgs cs i⟩

/-- Specification-side view of the whole pending map after a fragment
sequence: one entry per index in first-occurrence order, with the
reconstructed fields. -/
def pendingSpec (cs : List ToolCallChunk) : List (Int × PendingToolCall) :=
  (occIndices (cs.map (fun c => c.index))).map (fun i => (i, specPending cs i))

/-! ## The agent loop (`pkg/agent`, `src/unnamed/part_005` lines 336-505) -/

/-- The execute operation of a registered tool: `Tool.Execute` minus the
context, returning a JSON-representable value or an error message. -/
abbrev ToolImpl := ArgsMap → Except String Json

/-- Go `agent.Agent` (the provider lives behind the turn oracle of
`chat`). -/
structure Agent where
  SystemPrompt : String
  History : List Message
  Tools : String → Option ToolImpl
  MaxTurns : Nat

/-- Net effect of one provider turn as observed by `Agent.Chat`'s stream
loop: `fatal` covers both a `GenerateContent` error and a mid-stream error
event (in each case `Chat` returns without appending a model message);
`reply` carries the accumulated text and tool-call parts of the turn. -/
inductive TurnOut where
  | fatal
  | reply (text : String) (calls : List ToolCallPart)

/-- The user message appended at the start of `Chat` (lines 386-390). -/
def userMsg (input : String) : Message := ⟨RoleUser, [.text ⟨input⟩]⟩

/-- The model message appended after a turn (lines 442-456): the
accumulated text, if non-empty, followed by the tool-call parts. -/
def modelMsg (text : String) (calls : List ToolCallPart) : Message :=
  ⟨RoleModel, (if text = "" then [] else [.text ⟨text⟩]) ++ calls.map Part.toolCall⟩

/-- Content of a synthesized tool response (lines 464-479): unknown tool,
execution error, or the JSON-encoded result (`enc` stands for
`json.Marshal`). -/
def toolRespContent (tools : String → Option ToolImpl) (enc : Json → String)
    (tc : ToolCallPart) : String :=
  match tools tc.name with
  | none => "Error: Tool \x27" ++ tc.name ++ "\x27 not found."
  | some f =>
    match f tc.args with
    | .error m => "Error executing tool: " ++ m
    | .ok v => enc v

/-- The tool message appended per call (lines 488-498). -/
def toolMsg (tools : String → Option ToolImpl) (enc : Json → String)
    (tc : ToolCallPart) : Message :=
  ⟨RoleTool, [.toolResp ⟨tc.id, tc.name, toolRespContent tools enc tc⟩]⟩

/-- The turn loop of `Agent.Chat` (lines 397-501), `prov` giving each
turn's outcome. -/
def chatLoop (tools : String → Option ToolImpl) (enc : Json → String)
    (prov : Nat → TurnOut) (turn : Nat) :
    Nat → List Message → List Message
  | 0, h => h
  | fuel + 1, h =>
    match prov turn with
    | .fatal => h
    | .reply text calls =>
      let h1 := h ++ [modelMsg text calls]
      if calls.isEmpty then h1
      else chatLoop tools enc prov (turn + 1) fuel
        (h1 ++ calls.map (toolMsg tools enc))

/-- Embeds `Agent.Chat` (lines 384-505) as a history transformer: append
the user message, then run up to `MaxTurns` provider turns, executing the
called tools in order after each turn that produced calls. -/
def chat (ag : Agent) (enc : Json → String) (prov : Nat → TurnOut)
    (input : String) : Agent :=
  { ag with History :=
      (chatLoop ag.Tools enc prov 0 ag.MaxTurns (ag.History ++ [userMsg input])) }

/-- The property the provider contract assumes of call ids: the ids of one
turn's tool calls identify the calls (pairwise distinct within a turn). -/
def NodupProv (prov : Nat → TurnOut) : Prop :=
  ∀ n text calls, prov n = .reply text calls → (calls.map ToolCallPart.id).Nodup

/-- Invariant of histories built by the agent: a sequence of non-model
non-tool messages and of turn segments — a model message of accumulated
text and calls immediately followed by exactly the synthesized tool
message of each call, in call order. -/
inductive HistOK (tools : String → Option ToolImpl) (enc : Json → String) :
    List Message → Prop where
  | nil : HistOK tools enc []
  | plain (m : Message) (rest : List Message) :
      m.role ≠ RoleModel → m.role ≠ RoleTool →
      HistOK tools enc rest → HistOK tools enc (m :: rest)
  | seg (text : String) (calls : List ToolCallPart) (rest : List Message) :
      (calls.map ToolCallPart.id).Nodup →
      HistOK tools enc rest →
      HistOK tools enc (modelMsg text calls :: (calls.map (toolMsg tools enc) ++ rest))

/-- Boolean test: `m` is a tool message answering call id `id`. -/
def isRespForB (id : String) (m : Message) : Bool :=
  m.role == RoleTool &&
    m.content.any (fun p =>
      match p with
      | .toolResp r => r.id == id
      | _ => false)

/-- The claim's history well-formedness: every tool call of a model
message is answered by exactly one tool message before the next model
message, and that message is the synthesized response with the mandated
content. -/
def ChatHistoryWF (tools : String → Option ToolImpl) (enc : Json → String)
    (h : List Message) : Prop :=
  ∀ pre m post, h = pre ++ m :: post → m.role = RoleModel →
    ∀ tc, Part.toolCall tc ∈ m.content →
      (post.takeWhile (fun x => x.role != RoleModel)).countP (isRespForB tc.id) = 1 ∧
      ∀ x ∈ post.takeWhile (fun x => x.role != RoleModel),
        isRespForB tc.id x → x = toolMsg tools enc tc

/-! ## The investigator (`pkg/agent/investigator.go`) -/

/-- Go `agent.InvestigationReport`. -/
structure InvestigationReport where
  goal : String
  findings : List String
  files_explored : List String
  conclusion : String

/-- Go type assertion `v.(string)`. -/
def asString : Json → Option String
  | .str s => some s
  | _ => none

/-- Embeds `ReportTool.Execute` (lines 104-132): no validation — missing
or ill-typed keys default to zero values, non-string entries of the two
arrays are skipped — the report is always captured and the call always
succeeds.  The pair is (returned result, captured `t.Report`). -/
def reportToolExecute (args : ArgsMap) : Except String String × InvestigationReport :=
  (.ok "Report submitted successfully.",
   { goal := ((args.lookup "goal").bind asString).getD ""
     conclusion := ((args.lookup "conclusion").bind asString).getD ""
     findings :=
       match args.lookup "findings" with
       | some (.arr l) => l.filterMap asString
       | _ => []
     files_explored :=
       match args.lookup "files_explored" with
       | some (.arr l) => l.filterMap asString
       | _ => [] })

/-- Net effect of one `Agent.Chat` call issued by the investigator loop,
as an oracle: a pre-stream error, a mid-stream error event, or a drained
stream; `hist` is the agent's history after the call and `report` the
value captured by the report tool during it (if any). -/
inductive InvChatOutcome where
  | chatErr (e : String) (hist : List Message)
  | streamErr (e : String) (hist : List Message)
  | drained (hist : List Message) (report : Option InvestigationReport)

/-- The iteration loop of `Investigate` (lines 52-79): each iteration
chats, drains the stream, and returns the first captured report; `fuel`
counts the remaining iterations of the 15 allowed. -/
def investigateLoop (oracle : Nat → InvChatOutcome) :
    Nat → Nat → Agent → Except String InvestigationReport × Agent
  | _, 0, ag =>
    (.error "investigation timed out after 15 turns without a report", ag)
  | i, fuel + 1, ag =>
    match oracle i with
    | .chatErr e h => (.error e, { ag with History := h })
    | .streamErr e h => (.error e, { ag with History := h })
    | .drained h report =>
      match report with
      | some rep => (.ok rep, { ag with History := h })
      | none => investigateLoop oracle (i + 1) fuel { ag with History := h }

/-- The specialized system prompt of the investigator (lines 26-33). -/
def investigatorSysPrompt : String :=
  "You are a Codebase Investigator. Your goal is to answer the user\x27s query by exploring the codebase.\nYou must maintain a structured thought process.\nDo not guess. Verify facts by reading files.\nYou have access to \x27ls\x27, \x27read_file\x27, and \x27grep\x27 (if available). \nUse them to explore the file structure and content.\n\nWhen you have gathered enough information, call the \x27report_findings\x27 tool to finalize the task.\n"

/-- The execute operation of the report tool as registered in the agent
(capture is threaded through the oracle). -/
def reportToolImpl : ToolImpl := fun args =>
  .ok (.str (((reportToolExecute args).1.toOption).getD ""))

/-- Embeds `Investigator.Investigate` (lines 24-82): register the report
tool, save the prompt and history, install the investigation prompt and
seed history, run the loop, and — as the deferred block does on every
return path — restore the prompt and history and delete `report_findings`
from the registry. -/
def investigate (ag : Agent) (goal : String) (oracle : Nat → InvChatOutcome) :
    Except String InvestigationReport × Agent :=
  let ag1 := { ag with Tools := fun n =>
    if n = "report_findings" then some reportToolImpl else ag.Tools n }
  let originalPrompt := ag1.SystemPrompt
  let sysPrompt := investigatorSysPrompt ++ "\nOriginal Instructions: " ++ originalPrompt
  let ag2 := { ag1 with SystemPrompt := sysPrompt }
  let originalHistory := ag2.History
  let ag3 := { ag2 with History :=
    [⟨RoleSystem, [.text ⟨sysPrompt⟩]⟩,
     ⟨RoleUser, [.text ⟨"Investigate: " ++ goal⟩]⟩] }
  let r := investigateLoop oracle 0 15 ag3
  (r.1,
   { r.2 with
     SystemPrompt := originalPrompt
     History := originalHistory
     Tools := fun n => if n = "report_findings" then none else r.2.Tools n })

/-- A concrete agent state exercising all three part variants, used to
instantiate the session round-trip. -/
def sampleSession : Session :=
  ⟨"You are helpful.",
   [⟨RoleModel, [.text ⟨"hi"⟩,
      .toolCall ⟨"call_1", "read_file", [("path", .str "a.txt")]⟩]⟩,
    ⟨RoleTool, [.toolResp ⟨"call_1", "read_file", "data"⟩]⟩]⟩

/-- The wrapper-level session file `saveSession` produces for
`sampleSession`. -/
def sampleWireSession : WireSession :=
  ⟨"You are helpful.",
   [⟨"model", [⟨"text", some ⟨"hi"⟩, none, none⟩,
      ⟨"tool_call", none, some ⟨"call_1", "read_file", [("path", .str "a.txt")]⟩, none⟩]⟩,
    ⟨"tool", [⟨"tool_resp", none, none, some ⟨"call_1", "read_file", "data"⟩⟩]⟩]⟩

/-! # Theorems

## C1 — behaviour of `replace` on multiple literal occurrences -/

/-- Claim C1, counterexample: a file containing `old_string` literally
twice (`a\x0bb` occurs twice; no hash supplied).  `Execute` does NOT
return an "ambiguous; add context" error: the flexible strategy is
attempted — `\x0b` is whitespace to `strings.Fields` but not to the
pattern's `\s` class, so the pattern matches only the distinct region
`a b` — and the file IS written. -/
theorem c1_counterexample :
    goCount (strL "a\x0bb a\x0bb a b") (strL "a\x0bb") = 2 ∧
    editReplaceCore (strL "a\x0bb a\x0bb a b") (strL "a\x0bb") (strL "NEW") "" none
      = .ok ("Successfully replaced text (flexible match).", strL "a\x0bb a\x0bb NEW") := by
  decide

/-- Claim C1, amended: when `old_string` occurs literally two or more
times, the exact strategy merely declines (writing nothing itself) and
`Execute` falls through to the flexible and fixer strategies, which may
write; only if those also fail does it return the not-found error
`old_string not found (tried exact, flexible, and fixer)` — there is no
ambiguity error. -/
theorem c1_multiple_occurrences (content old new : Str) (fixer : FixerOracle)
    (h2 : 2 ≤ goCount content old) :
    tryExact content old new = none ∧
    (∀ c, tryFlexible content old new = some c →
      editReplaceCore content old new "" fixer
        = .ok ("Successfully replaced text (flexible match).", c)) ∧
    (tryFlexible content old new = none → fixer = none →
      editReplaceCore content old new "" fixer = .error editNotFoundErr) := by
  have hone : goCount content old ≠ 1 := by omega
  have hex : tryExact content old new = none := by
    unfold tryExact
    simp [hone]
  refine ⟨hex, ?_, ?_⟩
  · intro c hc
    unfold editReplaceCore
    simp [hex, hc]
  · intro hflex hfix
    unfold editReplaceCore
    simp [hex, hflex, hfix]

/-- Witness for `c1_multiple_occurrences` at a concrete input. -/
theorem c1_multiple_occurrences_witness :
    2 ≤ goCount (strL "xx") (strL "x") ∧
    tryExact (strL "xx") (strL "x") (strL "Y") = none :=
  ⟨by decide, (c1_multiple_occurrences (strL "xx") (strL "x") (strL "Y") none (by decide)).1⟩

/-! ## C2 — workspace sandbox containment -/

/-- Claim C2, counterexample: with root `/tmp/ws`, the path
`../ws2/secret` resolves (lexically, and equally after symlink-free
canonicalization) to `/tmp/ws2/secret`, which is NOT under the root —
yet `ensureInWorkspace` grants access, because `strings.HasPrefix` admits
the sibling directory `/tmp/ws2` as a string prefix match. -/
theorem c2_counterexample :
    ensureInWorkspace (strL "/cwd") (strL "/tmp/ws") (strL "../ws2/secret")
      = .ok (strL "/tmp/ws2/secret") ∧
    lexResolve (strL "/cwd") (strL "/tmp/ws") (strL "../ws2/secret")
      = strL "/tmp/ws2/secret" ∧
    ¬ pathUnder (strL "/tmp/ws") (strL "/tmp/ws2/secret") := by
  decide

/-- Claim C2, amended: for an absolute root, access is granted iff the
absolute root is a STRING prefix of the lexical resolution of the path
(`..` resolved by `filepath.Clean`/`Join`, symbolic links never resolved).
Canonical containment still implies a grant, but the converse fails
(`c2_counterexample`), and absolute paths are only rejected by the fs
tools — the edit tool `Join`s them under the root instead. -/
theorem c2_lexical_containment (cwd root target : Str)
    (habs : isAbsPath root = true) :
    (∀ t, ensureInWorkspace cwd root target = .ok t ↔
      (t = lexResolve cwd root target ∧
        (cleanPath root).isPrefixOf (lexResolve cwd root target))) ∧
    (pathUnder (cleanPath root) (lexResolve cwd root target) →
      ensureInWorkspace cwd root target = .ok (lexResolve cwd root target)) := by
  have habs2 : absPath cwd root = cleanPath root := by
    unfold absPath
    simp [habs]
  have hgrant : ensureInWorkspace cwd root target =
      if (cleanPath root).isPrefixOf (lexResolve cwd root target)
      then .ok (lexResolve cwd root target)
      else .error ("access denied: path " ++ String.mk target ++
        " is outside workspace " ++ String.mk root) := by
    simp only [ensureInWorkspace, lexResolve, habs2]
  have hmain : ∀ t, ensureInWorkspace cwd root target = .ok t ↔
      (t = lexResolve cwd root target ∧
        (cleanPath root).isPrefixOf (lexResolve cwd root target)) := by
    intro t
    rw [hgrant]
    split
    next hcond =>
      constructor
      · intro hok
        exact ⟨(Except.ok.inj hok).symm, hcond⟩
      · rintro ⟨rfl, -⟩
        rfl
    next hcond =>
      constructor
      · intro hok
        exact Except.noConfusion hok
      · rintro ⟨rfl, hpre⟩
        exact absurd hpre hcond
  refine ⟨hmain, ?_⟩
  intro hu
  refine (hmain _).mpr ⟨rfl, ?_⟩
  rcases hu with h | h
  · rw [List.isPrefixOf_iff_prefix, h]
  · rw [List.isPrefixOf_iff_prefix]
    exact List.IsPrefix.trans (List.prefix_append _ _)
      (List.isPrefixOf_iff_prefix.mp h)

/-- Witness for `c2_lexical_containment` at a concrete input: a relative
path inside the workspace is granted. -/
theorem c2_lexical_containment_witness :
    ensureInWorkspace (strL "/cwd") (strL "/tmp/ws") (strL "data.txt")
      = .ok (strL "/tmp/ws/data.txt") := by
  have h := (c2_lexical_containment (strL "/cwd") (strL "/tmp/ws") (strL "data.txt")
    (by decide)).1 (strL "/tmp/ws/data.txt")
  exact h.mpr ⟨by decide, by decide⟩

/-! ## C3 — the hash guard of `replace` -/

/-- Claim C3, counterexample: `expected_hash` supplied as the empty string
— which is certainly not the SHA-256 of the file — is treated as absent:
no hash-mismatch error is raised, the strategies run and the file is
rewritten. -/
theorem c3_counterexample :
    editExecute (strL "/cwd") (strL "/ws")
      { path := some "f.txt", old_string := some "a", new_string := some "X",
        expected_hash := some "" } (strL "ab") none
      = .ok ("Successfully replaced text (exact match).", strL "Xb") ∧
    sha256hexStr (strL "ab") ≠ "" := by
  decide

/-- Claim C3, amended: the hash guard applies exactly to a non-empty
supplied `expected_hash` (an empty — or non-string — value is read as
absent).  A non-empty value equal to the lowercase-hex SHA-256 of the
current bytes lets the edit proceed exactly as if unguarded; any other
non-empty value yields the hash-mismatch/re-read error, with no strategy
run and the file unchanged. -/
theorem c3_hash_guard (content old new : Str) (fixer : FixerOracle) (h : String)
    (hne : h ≠ "") :
    (h = sha256hexStr content →
      editReplaceCore content old new h fixer
        = editReplaceCore content old new "" fixer) ∧
    (h ≠ sha256hexStr content →
      editReplaceCore content old new h fixer
        = .error ("file content has changed (hash mismatch). Expected " ++ h ++
            ", got " ++ sha256hexStr content ++ ". Please re-read the file.")) := by
  constructor
  · intro heq
    subst heq
    unfold editReplaceCore
    rw [if_neg (fun hx => hx.2 rfl), if_neg (fun hx => hx.1 rfl)]
  · intro hneq
    unfold editReplaceCore
    rw [if_pos ⟨hne, Ne.symm hneq⟩]

/-- Witness for `c3_hash_guard` at a concrete input: a wrong non-empty
hash is rejected with the mismatch error. -/
theorem c3_hash_guard_witness :
    ("deadbeef" : String) ≠ "" ∧
    editReplaceCore (strL "ab") (strL "a") (strL "X") "deadbeef" none
      = .error ("file content has changed (hash mismatch). Expected deadbeef, got fb8e20fc2e4c3f248c60c39bd652f3c1347298bb977b8b4d5903b85055620603. Please re-read the file.") := by
  refine ⟨by decide, ?_⟩
  rw [(c3_hash_guard (strL "ab") (strL "a") (strL "X") none "deadbeef" (by decide)).2
    (by decide)]
  decide

/-! ## C6 — roles on the wire -/

/-- Claim C6, counterexample: a history message with role `model` is sent
with wire role `model`, not `assistant` — `GenerateContent` copies
`string(m.Role)` verbatim. -/
theorem c6_counterexample :
    (serializeHistory (fun _ => "") [⟨RoleModel, [.text ⟨"hi"⟩]⟩]).map OpenAIMessage.role
      = ["model"] ∧ ("model" : String) ≠ "assistant" := by
  decide

/-- Claim C6, amended: every history message's role is carried verbatim
onto the wire — including `model`, which is NOT rewritten to
`assistant`. -/
theorem c6_roles_verbatim (enc : ArgsMap → String) (h : List Message) :
    (serializeHistory enc h).map OpenAIMessage.role = h.map Message.role := by
  induction h with
  | nil => rfl
  | cons m t ih =>
    have hrole : (serializeMessage enc m).role = m.role := by
      unfold serializeMessage
      rcases serializeParts enc m.content with ⟨cs, tcs, tid⟩
      rfl
    simpa [serializeHistory, hrole] using ih

/-! ## C8 — `ReportTool.Execute` validation -/

/-- Claim C8, counterexample: a call with NO arguments at all — every
required key missing — still succeeds and still captures a report (with
zero-valued fields); no descriptive error is produced. -/
theorem c8_counterexample :
    reportToolExecute [] =
      (.ok "Report submitted successfully.",
       { goal := "", findings := [], files_explored := [], conclusion := "" }) := by
  rfl

/-- Claim C8, amended: `ReportTool.Execute` performs no validation: it
always captures a report and returns the success acknowledgment; missing
or ill-typed keys silently default to zero values, while supplied
string/array values are captured (non-string array entries dropped).  The
required-key list lives only in the advertised JSON schema. -/
theorem c8_no_validation (args : ArgsMap) :
    (reportToolExecute args).1 = .ok "Report submitted successfully." ∧
    (∀ g, args.lookup "goal" = some (.str g) → (reportToolExecute args).2.goal = g) ∧
    (∀ c, args.lookup "conclusion" = some (.str c) →
      (reportToolExecute args).2.conclusion = c) ∧
    (∀ l, args.lookup "findings" = some (.arr l) →
      (reportToolExecute args).2.findings = l.filterMap asString) := by
  refine ⟨rfl, ?_, ?_, ?_⟩
  · intro g hg
    simp [reportToolExecute, hg, asString]
  · intro c hc
    simp [reportToolExecute, hc, asString]
  · intro l hl
    simp [reportToolExecute, hl]

/-- Witness for `c8_no_validation` at a concrete input. -/
theorem c8_no_validation_witness :
    (reportToolExecute [("goal", Json.str "g1")]).1
      = .ok "Report submitted successfully." ∧
    (reportToolExecute [("goal", Json.str "g1")]).2.goal = "g1" :=
  ⟨(c8_no_validation [("goal", Json.str "g1")]).1,
   (c8_no_validation [("goal", Json.str "g1")]).2.1 "g1" rfl⟩

/-! ## C9 — the investigator restores the host agent -/

/-- Claim C9, confirmed: on every return path of `Investigate` — report
submission, chat or stream error at any iteration, and the iteration-cap
timeout (the oracle ranges over all of these) — the host agent's system
prompt and history are restored to their pre-call values and
`report_findings` is absent from the tool registry afterwards. -/
theorem c9_investigate_frame (ag : Agent) (goal : String)
    (oracle : Nat → InvChatOutcome) :
    (investigate ag goal oracle).2.SystemPrompt = ag.SystemPrompt ∧
    (investigate ag goal oracle).2.History = ag.History ∧
    (investigate ag goal oracle).2.Tools "report_findings" = none :=
  ⟨rfl, rfl, rfl⟩

/-! ## C10 — lossy unmarshalling vs. strict marshalling -/

/-- Claim C10, confirmed: `UnmarshalJSON` drops — without reporting — any
content entry whose type tag is unknown or whose matching payload is
absent (its decode is `none` exactly in those cases, and the entry
vanishes from the part list), whereas `MarshalJSON` errors on any part of
unknown dynamic type; so a session load can lose parts without
signaling. -/
theorem c10_unmarshal_lossy :
    (∀ w : PartWrapper, decodePart w = none ↔ ¬ wellFormedWrapper w) ∧
    (∀ (role : Role) (w : PartWrapper) (rest : List PartWrapper),
      decodePart w = none →
      unmarshalMessage ⟨role, w :: rest⟩ = unmarshalMessage ⟨role, rest⟩) ∧
    (∀ (m : Message) (t : String), Part.other t ∈ m.content →
      ∃ e, marshalMessage m = .error e) := by
  refine ⟨?_, ?_, ?_⟩
  · intro w
    rcases w with ⟨ty, ot, oc, og⟩
    unfold decodePart wellFormedWrapper
    by_cases h1 : ty = "text" <;> by_cases h2 : ty = "tool_call" <;>
      by_cases h3 : ty = "tool_resp" <;>
      cases ot <;> cases oc <;> cases og <;> simp_all
  · intro role w rest h
    unfold unmarshalMessage
    simp [h]
  · intro m t hmem
    have hparts : ∀ ps : List Part, Part.other t ∈ ps →
        ∃ e, marshalParts ps = .error e := by
      intro ps
      induction ps with
      | nil => intro h; cases h
      | cons p ps ih =>
        intro h
        rcases List.mem_cons.mp h with rfl | hmem2
        · exact ⟨"unknown part type: " ++ t, rfl⟩
        · rcases ih hmem2 with ⟨e, he⟩
          cases hp : marshalPart p with
          | error e2 => exact ⟨e2, by simp [marshalParts, hp]⟩
          | ok w2 => exact ⟨e, by simp [marshalParts, hp, he]⟩
    rcases hparts m.content hmem with ⟨e, he⟩
    exact ⟨e, by simp [marshalMessage, he]⟩

/-- Witness for `c10_unmarshal_lossy` at concrete inputs. -/
theorem c10_unmarshal_lossy_witness :
    decodePart ⟨"bogus", none, none, none⟩ = none ∧
    unmarshalMessage ⟨RoleModel, [⟨"bogus", none, none, none⟩]⟩
      = unmarshalMessage ⟨RoleModel, []⟩ ∧
    ∃ e, marshalMessage ⟨RoleModel, [Part.other "mcp.RawPart"]⟩ = .error e := by
  refine ⟨?_, ?_, ?_⟩
  · exact (c10_unmarshal_lossy.1 _).mpr (by simp [wellFormedWrapper])
  · exact c10_unmarshal_lossy.2.1 RoleModel _ []
      ((c10_unmarshal_lossy.1 _).mpr (by simp [wellFormedWrapper]))
  · exact c10_unmarshal_lossy.2.2 _ "mcp.RawPart" (by simp)

/-! ## C7 — session round-trip -/

/-- Wrapping a known part then decoding the wrapper restores the part. -/
theorem marshalPart_roundtrip (p : Part) (w : PartWrapper)
    (h : marshalPart p = .ok w) : decodePart w = some p := by
  cases p with
  | text q => cases h; rfl
  | toolCall q => cases h; rfl
  | toolResp q => cases h; rfl
  | other t => exact Except.noConfusion h

/-- A successfully wrapped part list decodes back to itself. -/
theorem marshalParts_roundtrip (ps : List Part) (ws : List PartWrapper)
    (h : marshalParts ps = .ok ws) : ws.filterMap decodePart = ps := by
  induction ps generalizing ws with
  | nil =>
    simp only [marshalParts] at h
    cases h
    rfl
  | cons p ps ih =>
    simp only [marshalParts] at h
    cases hp : marshalPart p with
    | error e => rw [hp] at h; exact absurd h (by simp)
    | ok w =>
      rw [hp] at h
      cases hps : marshalParts ps with
      | error e => rw [hps] at h; exact absurd h (by simp)
      | ok ws2 =>
        rw [hps] at h
        cases h
        simp [List.filterMap_cons, marshalPart_roundtrip p w hp, ih ws2 hps]

/-- A successfully marshalled message unmarshal back to itself. -/
theorem marshalMessage_roundtrip (m : Message) (wm : WireMessage)
    (h : marshalMessage m = .ok wm) : unmarshalMessage wm = m := by
  rcases m with ⟨r, content⟩
  simp only [marshalMessage] at h
  cases hps : marshalParts content with
  | error e => rw [hps] at h; exact absurd h (by simp)
  | ok ws =>
    rw [hps] at h
    cases h
    unfold unmarshalMessage
    simp [marshalParts_roundtrip content ws hps]

/-- A successfully marshalled history unmarshals back to itself. -/
theorem marshalHistory_roundtrip (hist : List Message) (whist : List WireMessage)
    (h : marshalHistory hist = .ok whist) : whist.map unmarshalMessage = hist := by
  induction hist generalizing whist with
  | nil =>
    simp only [marshalHistory] at h
    cases h
    rfl
  | cons m ms ih =>
    simp only [marshalHistory] at h
    cases hm : marshalMessage m with
    | error e => rw [hm] at h; exact absurd h (by simp)
    | ok wm =>
      rw [hm] at h
      cases hms : marshalHistory ms with
      | error e => rw [hms] at h; exact absurd h (by simp)
      | ok wms =>
        rw [hms] at h
        cases h
        simp [marshalMessage_roundtrip m wm hm, ih wms hms]

/-- Claim C7, confirmed: whenever `SaveSession` succeeds in producing a
session file, `LoadSession` on that file restores an equal state — the
same system prompt and the same history, part variants and fields
(tool-call argument maps included). -/
theorem c7_session_roundtrip (s : Session) (w : WireSession)
    (h : saveSession s = .ok w) : loadSession w = s := by
  rcases s with ⟨sp, hist⟩
  simp only [saveSession] at h
  cases hh : marshalHistory hist with
  | error e => rw [hh] at h; exact absurd h (by simp)
  | ok ws =>
    rw [hh] at h
    cases h
    unfold loadSession
    simp [marshalHistory_roundtrip hist ws hh]

/-- Witness for `c7_session_roundtrip`: a concrete save then load. -/
theorem c7_session_roundtrip_witness :
    saveSession sampleSession = .ok sampleWireSession ∧
    loadSession sampleWireSession = sampleSession :=
  ⟨rfl, c7_session_roundtrip sampleSession sampleWireSession rfl⟩

/-! ## C5 — SSE tool-call reassembly -/

/-- Lookup in an Int-keyed association list succeeds exactly on its
keys. -/
theorem lookup_isSome_iff {β : Type _} (st : List (Int × β)) (i : Int) :
    (st.lookup i).isSome ↔ i ∈ st.map Prod.fst := by
  induction st with
  | nil => simp
  | cons e t ih =>
    rcases e with ⟨j, v⟩
    by_cases h : i = j
    · subst h
      simp [List.lookup_cons]
    · have hb : (i == j) = false := by simpa using h
      simp [List.lookup_cons, hb, ih, h]

/-- Membership in the first-occurrence fold. -/
theorem mem_occIndices_aux (l : List Int) (acc : List Int) (x : Int) :
    x ∈ l.foldl (fun acc i => if i ∈ acc then acc else acc ++ [i]) acc
      ↔ x ∈ acc ∨ x ∈ l := by
  induction l generalizing acc with
  | nil => simp
  | cons i t ih =>
    simp only [List.foldl_cons]
    by_cases h : i ∈ acc
    · rw [if_pos h, ih]
      simp only [List.mem_cons]
      constructor
      · rintro (hx | hx)
        · exact Or.inl hx
        · exact Or.inr (Or.inr hx)
      · rintro (hx | rfl | hx)
        · exact Or.inl hx
        · exact Or.inl h
        · exact Or.inr hx
    · rw [if_neg h, ih]
      simp only [List.mem_append, List.mem_singleton, List.mem_cons]
      tauto

/-- An index appears in `occIndices` iff it appears in the sequence. -/
theorem mem_occIndices (l : List Int) (x : Int) : x ∈ occIndices l ↔ x ∈ l := by
  unfold occIndices
  rw [mem_occIndices_aux]
  simp

/-- First-occurrence order is stable under appending one element. -/
theorem occIndices_append_one (l : List Int) (i : Int) :
    occIndices (l ++ [i])
      = if i ∈ occIndices l then occIndices l else occIndices l ++ [i] := by
  unfold occIndices
  simp only [List.foldl_append, List.foldl_cons, List.foldl_nil]

/-- Filtering by index distributes over appending one fragment. -/
theorem filter_index_append_one (cs : List ToolCallChunk) (c : ToolCallChunk) (i : Int) :
    (cs ++ [c]).filter (fun x => x.index = i)
      = cs.filter (fun x => x.index = i) ++ (if c.index = i then [c] else []) := by
  rw [List.filter_append]
  congr 1
  by_cases h : c.index = i <;> simp [h]

/-- The reconstructed id after one more fragment. -/
theorem specId_append_one (cs : List ToolCallChunk) (c : ToolCallChunk) (i : Int) :
    specId (cs ++ [c]) i =
      if c.index = i then (if c.id ≠ "" then c.id else specId cs i)
      else specId cs i := by
  unfold specId
  rw [filter_index_append_one]
  by_cases hci : c.index = i
  · rw [if_pos hci, if_pos hci, List.map_append, List.filter_append,
      List.getLast?_append]
    by_cases hid : c.id = "" <;> simp [hid, Option.or]
  · rw [if_neg hci, if_neg hci]
    simp

/-- The reconstructed name after one more fragment. -/
theorem specName_append_one (cs : List ToolCallChunk) (c : ToolCallChunk) (i : Int) :
    specName (cs ++ [c]) i =
      if c.index = i then (if c.name ≠ "" then c.name else specName cs i)
      else specName cs i := by
  unfold specName
  rw [filter_index_append_one]
  by_cases hci : c.index = i
  · rw [if_pos hci, if_pos hci, List.map_append, List.filter_append,
      List.getLast?_append]
    by_cases hid : c.name = "" <;> simp [hid, Option.or]
  · rw [if_neg hci, if_neg hci]
    simp

/-- The reconstructed argument buffer after one more fragment. -/
theorem specArgs_append_one (cs : List ToolCallChunk) (c : ToolCallChunk) (i : Int) :
    specArgs (cs ++ [c]) i =
      if c.index = i then specArgs cs i ++ c.arguments else specArgs cs i := by
  unfold specArgs
  rw [filter_index_append_one]
  by_cases hci : c.index = i
  · rw [if_pos hci, if_pos hci]
    simp [List.foldl_append]
  · rw [if_neg hci, if_neg hci]
    simp

/-- One more fragment updates the reconstructed pending call exactly as
`applyChunk` does. -/
theorem specPending_append_one (cs : List ToolCallChunk) (c : ToolCallChunk) (i : Int) :
    specPending (cs ++ [c]) i =
      if i = c.index then applyChunk (specPending cs i) c else specPending cs i := by
  unfold specPending applyChunk
  by_cases hci : c.index = i
  · rw [if_pos hci.symm, specId_append_one, specName_append_one, specArgs_append_one,
      if_pos hci, if_pos hci, if_pos hci]
    by_cases ha : c.arguments = "" <;> simp [ha]
  · rw [if_neg (fun h => hci h.symm), specId_append_one, specName_append_one,
      specArgs_append_one, if_neg hci, if_neg hci, if_neg hci]

/-- An index never seen reconstructs to the empty pending call. -/
theorem specPending_notMem (cs : List ToolCallChunk) (i : Int)
    (h : i ∉ cs.map (fun c => c.index)) : specPending cs i = ⟨"", "", ""⟩ := by
  have hf : cs.filter (fun c => c.index = i) = [] := by
    rw [List.filter_eq_nil_iff]
    intro a ha
    simp only [decide_eq_true_eq]
    intro heq
    exact h (heq ▸ List.mem_map_of_mem _ ha)
  unfold specPending specId specName specArgs
  rw [hf]
  rfl

/-- The keys of the reconstructed pending map, in order. -/
theorem pendingSpec_keys (cs : List ToolCallChunk) :
    (pendingSpec cs).map Prod.fst = occIndices (cs.map (fun c => c.index)) := by
  unfold pendingSpec
  rw [List.map_map]
  have hcomp : (Prod.fst ∘ fun i : Int => (i, specPending cs i)) = id := rfl
  rw [hcomp, List.map_id]

/-- The fold of the stream loop equals the specification-side
reconstruction: the pending map holds, per index in first-occurrence
order, the last non-empty id and name fragments and the concatenated
argument buffer. -/
theorem foldl_updChunk_spec (cs : List ToolCallChunk) :
    cs.foldl updChunk [] = pendingSpec cs := by
  induction cs using List.reverseRecOn with
  | nil => rfl
  | append_singleton cs c ih =>
    rw [List.foldl_append, ih, List.foldl_cons, List.foldl_nil]
    unfold updChunk
    by_cases hmem : c.index ∈ cs.map (fun x => x.index)
    · have hkey : ((pendingSpec cs).lookup c.index).isSome := by
        rw [lookup_isSome_iff, pendingSpec_keys, mem_occIndices]
        exact hmem
      rw [if_pos hkey]
      unfold pendingSpec
      simp only [List.map_append, List.map_cons, List.map_nil]
      rw [occIndices_append_one, if_pos ((mem_occIndices _ _).mpr hmem), List.map_map]
      apply List.map_congr_left
      intro i hi
      simp only [Function.comp]
      rw [specPending_append_one]
      by_cases hic : i = c.index <;> simp [hic]
    · have hkey : ¬ ((pendingSpec cs).lookup c.index).isSome := by
        rw [lookup_isSome_iff, pendingSpec_keys, mem_occIndices]
        exact hmem
      rw [if_neg hkey]
      unfold pendingSpec
      simp only [List.map_append, List.map_cons, List.map_nil]
      rw [occIndices_append_one,
        if_neg (fun hin => hmem ((mem_occIndices _ _).mp hin)), List.map_append]
      congr 1
      · apply List.map_congr_left
        intro i hi
        have hne : i ≠ c.index := fun heq =>
          hmem (heq ▸ (mem_occIndices _ _).mp hi)
        rw [specPending_append_one, if_neg hne]
      · simp only [List.map_singleton]
        rw [specPending_append_one, if_pos rfl, specPending_notMem cs c.index hmem]

/-- Text-only event lists contain no tool-calls batch. -/
theorem toolCallsEventsOf_text (s : String) :
    toolCallsEventsOf (if s ≠ "" then [SSEEvent.delta s] else []) = [] := by
  by_cases h : s = "" <;> simp [h, toolCallsEventsOf]

/-- A delta without a finishing reason only folds fragments and emits
text. -/
theorem stepDelta_nofinish (parse : String → Option ArgsMap)
    (st : List (Int × PendingToolCall)) (d : DeltaChoice)
    (h : ¬ (d.finish_reason = "tool_calls" ∨ d.finish_reason = "stop")) :
    stepDelta parse st d =
      (d.tool_calls.foldl updChunk st,
       if d.content ≠ "" then [SSEEvent.delta d.content] else []) := by
  unfold stepDelta
  rw [if_neg h]

/-- Over finish-free deltas the loop accumulates fragments and emits no
tool-calls event. -/
theorem processDeltas_nofinish (parse : String → Option ArgsMap)
    (ds : List DeltaChoice) (st : List (Int × PendingToolCall))
    (h : ∀ d ∈ ds, ¬ (d.finish_reason = "tool_calls" ∨ d.finish_reason = "stop")) :
    (processDeltas parse ds st).1
        = (ds.flatMap DeltaChoice.tool_calls).foldl updChunk st ∧
    toolCallsEventsOf (processDeltas parse ds st).2 = [] := by
  induction ds generalizing st with
  | nil => simp [processDeltas, toolCallsEventsOf]
  | cons d ds ih =>
    have hd := h d (List.mem_cons_self d ds)
    have hrest := fun d2 h2 => h d2 (List.mem_cons_of_mem d h2)
    simp only [processDeltas]
    rw [stepDelta_nofinish parse st d hd]
    obtain ⟨ih1, ih2⟩ := ih (d.tool_calls.foldl updChunk st) hrest
    constructor
    · rw [List.flatMap_cons, List.foldl_append]
      exact ih1
    · unfold toolCallsEventsOf at ih2 ⊢
      rw [List.filterMap_append]
      have := toolCallsEventsOf_text d.content
      unfold toolCallsEventsOf at this
      rw [this, ih2]
      rfl

/-- The loop splits over a split of the delta sequence. -/
theorem processDeltas_append (parse : String → Option ArgsMap)
    (a b : List DeltaChoice) (st : List (Int × PendingToolCall)) :
    processDeltas parse (a ++ b) st =
      ((processDeltas parse b (processDeltas parse a st).1).1,
       (processDeltas parse a st).2
         ++ (processDeltas parse b (processDeltas parse a st).1).2) := by
  induction a generalizing st with
  | nil => simp [processDeltas]
  | cons d a ih =>
    simp only [List.cons_append, processDeltas]
    simp [ih, List.append_assoc]

/-- Claim C5, confirmed: for tool-call fragments sharded arbitrarily
across the deltas of one turn, the stream goroutine emits exactly one
tool-calls event — at the delta whose finish reason is `tool_calls` or
`stop` — containing, per index in first-occurrence order, the call with
the last non-empty id and name fragments and the JSON-parse of the
concatenated argument buffer (an unparsable buffer yielding the empty
map, not an error), and the pending state is cleared. -/
theorem c5_sse_reassembly (parse : String → Option ArgsMap)
    (ds : List DeltaChoice) (fin : DeltaChoice)
    (hds : ∀ d ∈ ds, ¬ (d.finish_reason = "tool_calls" ∨ d.finish_reason = "stop"))
    (hfin : fin.finish_reason = "tool_calls" ∨ fin.finish_reason = "stop")
    (hne : (ds ++ [fin]).flatMap DeltaChoice.tool_calls ≠ []) :
    (processDeltas parse (ds ++ [fin]) []).1 = [] ∧
    toolCallsEventsOf (processDeltas parse (ds ++ [fin]) []).2 =
      [(occIndices (((ds ++ [fin]).flatMap DeltaChoice.tool_calls).map
          (fun c => c.index))).map
        (fun i => finalizePending parse
          (specPending ((ds ++ [fin]).flatMap DeltaChoice.tool_calls) i))] := by
  obtain ⟨hst, hevs⟩ := processDeltas_nofinish parse ds [] hds
  have hallC : (ds ++ [fin]).flatMap DeltaChoice.tool_calls
      = ds.flatMap DeltaChoice.tool_calls ++ fin.tool_calls := by
    rw [List.flatMap_append]
    simp
  have hfold : fin.tool_calls.foldl updChunk (processDeltas parse ds [] ).1
      = pendingSpec ((ds ++ [fin]).flatMap DeltaChoice.tool_calls) := by
    rw [hst, ← List.foldl_append, ← hallC, foldl_updChunk_spec]
  have hnonempty : (pendingSpec ((ds ++ [fin]).flatMap DeltaChoice.tool_calls)).map
      (fun e => finalizePending parse e.2) ≠ [] := by
    unfold pendingSpec
    intro hcontra
    simp only [List.map_map, List.map_eq_nil_iff] at hcontra
    rcases List.exists_mem_of_ne_nil _ hne with ⟨c, hc⟩
    have : c.index ∈ occIndices (((ds ++ [fin]).flatMap DeltaChoice.tool_calls).map
        (fun c => c.index)) :=
      (mem_occIndices _ _).mpr (List.mem_map_of_mem _ hc)
    rw [hcontra] at this
    cases this
  have hnotempty : ¬ (((pendingSpec ((ds ++ [fin]).flatMap DeltaChoice.tool_calls)).map
      (fun e => finalizePending parse e.2)).isEmpty = true) := by
    have hfalse := List.isEmpty_eq_false.mpr hnonempty
    intro hcontra
    rw [hcontra] at hfalse
    cases hfalse
  have hstep : stepDelta parse (processDeltas parse ds []).1 fin
      = (([] : List (Int × PendingToolCall)),
         (if fin.content ≠ "" then [SSEEvent.delta fin.content] else [])
           ++ [SSEEvent.toolCalls ((pendingSpec ((ds ++ [fin]).flatMap
                DeltaChoice.tool_calls)).map
              (fun e => finalizePending parse e.2))]) := by
    unfold stepDelta
    rw [if_pos hfin, hfold, if_neg hnotempty]
  rw [processDeltas_append]
  constructor
  · simp only [processDeltas, hstep]
  · have htext := toolCallsEventsOf_text fin.content
    unfold toolCallsEventsOf at hevs htext ⊢
    simp only [processDeltas, hstep, List.filterMap_append, hevs, htext,
      List.filterMap_cons, List.filterMap_nil, List.append_nil, List.nil_append]
    unfold pendingSpec
    rw [List.map_map]
    rfl

/-- Witness for `c5_sse_reassembly`: a call sharded over two deltas (id
first, then name, then the argument string split in two) is reassembled
into one batch on the finishing delta. -/
theorem c5_sse_reassembly_witness :
    (processDeltas (fun s => if s = "abcd" then some [("k", Json.str "v")] else none)
        ([⟨"Okay.", [⟨0, "call_1", "", ""⟩, ⟨0, "", "read_file", ""⟩], ""⟩,
          ⟨"", [⟨0, "", "", "ab"⟩, ⟨0, "", "", "cd"⟩], ""⟩] ++
         [⟨"", [], "tool_calls"⟩]) []).1 = [] ∧
    toolCallsEventsOf (processDeltas
        (fun s => if s = "abcd" then some [("k", Json.str "v")] else none)
        ([⟨"Okay.", [⟨0, "call_1", "", ""⟩, ⟨0, "", "read_file", ""⟩], ""⟩,
          ⟨"", [⟨0, "", "", "ab"⟩, ⟨0, "", "", "cd"⟩], ""⟩] ++
         [⟨"", [], "tool_calls"⟩]) []).2
      = [[⟨"call_1", "read_file", [("k", Json.str "v")]⟩]] := by
  have h := c5_sse_reassembly
    (fun s => if s = "abcd" then some [("k", Json.str "v")] else none)
    [⟨"Okay.", [⟨0, "call_1", "", ""⟩, ⟨0, "", "read_file", ""⟩], ""⟩,
     ⟨"", [⟨0, "", "", "ab"⟩, ⟨0, "", "", "cd"⟩], ""⟩]
    ⟨"", [], "tool_calls"⟩ (by decide) (by decide) (by decide)
  refine ⟨h.1, ?_⟩
  rw [h.2]
  rfl

/-! ## C4 — history well-formedness after `Chat` -/

/-- A tool-call part belongs to the model message of a turn iff the call
belongs to the turn's call list. -/
theorem toolCall_mem_modelMsg (text : String) (calls : List ToolCallPart)
    (tc : ToolCallPart) :
    Part.toolCall tc ∈ (modelMsg text calls).content ↔ tc ∈ calls := by
  by_cases ht : text = "" <;> simp [modelMsg, ht]

/-- A synthesized tool message answers exactly its own call id. -/
theorem isRespForB_toolMsg (tools : String → Option ToolImpl) (enc : Json → String)
    (i : String) (tc : ToolCallPart) :
    isRespForB i (toolMsg tools enc tc) = (tc.id == i) := by
  unfold isRespForB toolMsg
  simp

/-- Messages whose role is not `tool` answer no call. -/
theorem isRespForB_eq_false_of_role (i : String) (m : Message)
    (h : m.role ≠ RoleTool) : isRespForB i m = false := by
  unfold isRespForB
  have hb : (m.role == RoleTool) = false := beq_eq_false_iff_ne.mpr h
  rw [hb]
  rfl

/-- `takeWhile` passes over a block whose members all satisfy the
predicate. -/
theorem takeWhile_append_of_all {α : Type _} (p : α → Bool) (l1 l2 : List α)
    (h : ∀ x ∈ l1, p x = true) :
    (l1 ++ l2).takeWhile p = l1 ++ l2.takeWhile p := by
  induction l1 with
  | nil => simp
  | cons a t ih =>
    simp [List.takeWhile_cons, h a (List.mem_cons_self a t),
      ih (fun x hx => h x (List.mem_cons_of_mem a hx))]

/-- In an agent-built history, the window up to the next model message
contains no tool-role message at its start (tool messages only follow
their model message). -/
theorem histOK_window_no_tool (tools : String → Option ToolImpl)
    (enc : Json → String) (h : List Message) (hok : HistOK tools enc h) :
    ∀ x ∈ h.takeWhile (fun m => m.role != RoleModel), x.role ≠ RoleTool := by
  induction hok with
  | nil => intro x hx; cases hx
  | plain m rest hm ht hrest ih =>
    intro x hx
    rw [List.takeWhile_cons] at hx
    have hb : (m.role != RoleModel) = true := by simpa using hm
    rw [hb, if_pos rfl] at hx
    rcases List.mem_cons.mp hx with rfl | hx2
    · exact ht
    · exact ih x hx2
  | seg text calls rest hnodup hrest ih =>
    intro x hx
    rw [List.takeWhile_cons] at hx
    have hb : ((modelMsg text calls).role != RoleModel) = false := by
      simp [modelMsg]
    rw [hb] at hx
    simp at hx

/-- No call id is answered inside the tool-free window of an agent-built
history. -/
theorem histOK_window_count_zero (tools : String → Option ToolImpl)
    (enc : Json → String) (i : String) (h : List Message)
    (hok : HistOK tools enc h) :
    (h.takeWhile (fun m => m.role != RoleModel)).countP (isRespForB i) = 0 := by
  rw [List.countP_eq_zero]
  intro x hx
  rw [isRespForB_eq_false_of_role i x (histOK_window_no_tool tools enc h hok x hx)]
  simp

/-- The agent-built history invariant implies the claim's property: every
call of a model message is answered exactly once before the next model
message, by the synthesized tool message. -/
theorem histOK_wf (tools : String → Option ToolImpl) (enc : Json → String)
    (h : List Message) (hok : HistOK tools enc h) :
    ChatHistoryWF tools enc h := by
  induction hok with
  | nil =>
    intro pre m post hdecomp
    exact absurd hdecomp.symm (by simp)
  | plain m0 rest hm0 ht0 hrest ih =>
    intro pre m post hdecomp hrole tc htc
    cases pre with
    | nil =>
      simp only [List.nil_append] at hdecomp
      injection hdecomp with h1 h2
      subst h1
      exact absurd hrole hm0
    | cons q pre2 =>
      simp only [List.cons_append] at hdecomp
      injection hdecomp with h1 h2
      exact ih pre2 m post h2 hrole tc htc
  | seg text calls rest hnodup hrest ih =>
    intro pre m post hdecomp hrole tc htc
    cases pre with
    | nil =>
      simp only [List.nil_append] at hdecomp
      injection hdecomp with h1 h2
      subst h1
      subst h2
      have htc2 : tc ∈ calls := (toolCall_mem_modelMsg text calls tc).mp htc
      have hall : ∀ x ∈ calls.map (toolMsg tools enc),
          ((fun m : Message => m.role != RoleModel) x) = true := by
        intro x hx
        rcases List.mem_map.mp hx with ⟨a, _, rfl⟩
        simp [toolMsg, RoleTool, RoleModel]
      rw [takeWhile_append_of_all _ _ _ hall]
      constructor
      · rw [List.countP_append,
          histOK_window_count_zero tools enc tc.id rest hrest, List.countP_map]
        have hcong : List.countP (isRespForB tc.id ∘ toolMsg tools enc) calls
            = List.countP (· == tc.id) (calls.map ToolCallPart.id) := by
          rw [List.countP_map]
          apply List.countP_congr
          intro c _
          rw [Function.comp_apply, Function.comp_apply, isRespForB_toolMsg]
        rw [hcong]
        have hcount : List.count tc.id (calls.map ToolCallPart.id) = 1 :=
          List.count_eq_one_of_mem hnodup (List.mem_map_of_mem _ htc2)
        have : List.count tc.id (calls.map ToolCallPart.id)
            = List.countP (· == tc.id) (calls.map ToolCallPart.id) := rfl
        rw [← this, hcount]
      · intro x hx hresp
        rcases List.mem_append.mp hx with hx1 | hx2
        · rcases List.mem_map.mp hx1 with ⟨c, hc, rfl⟩
          rw [isRespForB_toolMsg] at hresp
          have hceq : c = tc :=
            List.inj_on_of_nodup_map hnodup hc htc2 (by simpa using hresp)
          rw [hceq]
        · have hnt := histOK_window_no_tool tools enc rest hrest x hx2
          rw [isRespForB_eq_false_of_role tc.id x hnt] at hresp
          cases hresp
    | cons q pre2 =>
      simp only [List.cons_append] at hdecomp
      injection hdecomp with h1 h2
      rcases List.append_eq_append_iff.mp h2 with ⟨w, hw1, hw2⟩ | ⟨w, hw1, hw2⟩
      · exact ih w m post hw2 hrole tc htc
      · cases w with
        | nil =>
          simp only [List.nil_append] at hw2
          exact ih [] m post (by simpa using hw2.symm) hrole tc htc
        | cons m2 w2 =>
          injection hw2 with h3 h4
          have hmem : m2 ∈ calls.map (toolMsg tools enc) := by
            rw [hw1]
            exact List.mem_append.mpr (Or.inr (List.mem_cons_self m2 w2))
          rcases List.mem_map.mp hmem with ⟨c, _, hc2⟩
          subst h3
          rw [← hc2] at hrole
          simp [toolMsg, RoleModel, RoleTool] at hrole

/-- Appending agent-built histories preserves the invariant. -/
theorem histOK_append (tools : String → Option ToolImpl) (enc : Json → String)
    (h1 h2 : List Message) (ha : HistOK tools enc h1) (hb : HistOK tools enc h2) :
    HistOK tools enc (h1 ++ h2) := by
  induction ha with
  | nil => simpa
  | plain m rest hm ht hrest ih => exact HistOK.plain m (rest ++ h2) hm ht ih
  | seg text calls rest hnodup hrest ih =>
    have hshape : (modelMsg text calls :: (calls.map (toolMsg tools enc) ++ rest)) ++ h2
        = modelMsg text calls :: (calls.map (toolMsg tools enc) ++ (rest ++ h2)) := by
      simp [List.append_assoc]
    rw [hshape]
    exact HistOK.seg text calls (rest ++ h2) hnodup ih

/-- The turn loop of `Chat` preserves the history invariant. -/
theorem chatLoop_histOK (tools : String → Option ToolImpl) (enc : Json → String)
    (prov : Nat → TurnOut) (hprov : NodupProv prov) :
    ∀ (fuel turn : Nat) (h : List Message), HistOK tools enc h →
      HistOK tools enc (chatLoop tools enc prov turn fuel h) := by
  intro fuel
  induction fuel with
  | zero => intro turn h hok; exact hok
  | succ fuel ih =>
    intro turn h hok
    simp only [chatLoop]
    cases hp : prov turn with
    | fatal => exact hok
    | reply text calls =>
      have hseg : HistOK tools enc
          (modelMsg text calls :: (calls.map (toolMsg tools enc) ++ [])) :=
        HistOK.seg text calls [] (hprov turn text calls hp) HistOK.nil
      by_cases hc : calls.isEmpty
      · have hcalls : calls = [] := List.isEmpty_iff.mp hc
        subst hcalls
        simp only [hc, if_true]
        simpa using histOK_append tools enc h _ hok hseg
      · simp only [hc, if_false]
        apply ih
        have := histOK_append tools enc h _ hok hseg
        simpa [List.append_assoc] using this

/-- Claim C4, confirmed: after any completed `Chat` call whose provider
emits per-turn calls with pairwise-distinct ids (the data model's stable
call-id assumption) on an agent-built history, the history is again
agent-built and satisfies the claim: every ToolCallPart of every model
message is answered by exactly one tool message before the next model
message, whose content is `Error: Tool \x27name\x27 not found.` for an
unregistered tool, `Error executing tool: message` on execution error, or
the JSON-encoded return value on success. -/
theorem c4_history_wellformed (ag : Agent) (enc : Json → String)
    (prov : Nat → TurnOut) (input : String)
    (hprov : NodupProv prov) (h0 : HistOK ag.Tools enc ag.History) :
    HistOK ag.Tools enc (chat ag enc prov input).History ∧
    ChatHistoryWF ag.Tools enc (chat ag enc prov input).History := by
  have huser : HistOK ag.Tools enc (ag.History ++ [userMsg input]) :=
    histOK_append ag.Tools enc ag.History [userMsg input] h0
      (HistOK.plain (userMsg input) []
        (by intro hc; simp [userMsg, RoleUser, RoleModel] at hc)
        (by intro hc; simp [userMsg, RoleUser, RoleTool] at hc)
        HistOK.nil)
  have hloop := chatLoop_histOK ag.Tools enc prov hprov ag.MaxTurns 0 _ huser
  exact ⟨hloop, histOK_wf ag.Tools enc _ hloop⟩

/-- Witness for `c4_history_wellformed`: a two-turn run — one `echo` tool
call answered, then a plain final turn — from an empty history. -/
theorem c4_history_wellformed_witness :
    HistOK (fun n => if n = "echo" then some (fun _ => .ok (.str "ok")) else none)
        (fun _ => "\x22ok\x22")
        (chat ⟨"", [], fun n => if n = "echo" then some (fun _ => .ok (.str "ok")) else none, 10⟩
          (fun _ => "\x22ok\x22")
          (fun n => if n = 0 then .reply "Okay." [⟨"call_1", "echo", []⟩]
                    else .reply "done." [])
          "hi").History ∧
    ChatHistoryWF (fun n => if n = "echo" then some (fun _ => .ok (.str "ok")) else none)
        (fun _ => "\x22ok\x22")
        (chat ⟨"", [], fun n => if n = "echo" then some (fun _ => .ok (.str "ok")) else none, 10⟩
          (fun _ => "\x22ok\x22")
          (fun n => if n = 0 then .reply "Okay." [⟨"call_1", "echo", []⟩]
                    else .reply "done." [])
          "hi").History := by
  have hprov : NodupProv (fun n => if n = 0 then
      TurnOut.reply "Okay." [⟨"call_1", "echo", []⟩] else TurnOut.reply "done." []) := by
    intro n text calls hp
    by_cases hn : n = 0
    · simp [hn] at hp
      obtain ⟨h1, h2⟩ := hp
      subst h2
      simp
    · simp [hn] at hp
      obtain ⟨h1, h2⟩ := hp
      subst h2
      simp
  exact c4_history_wellformed
    ⟨"", [], fun n => if n = "echo" then some (fun _ => Except.ok (Json.str "ok")) else none, 10⟩
    (fun _ => "\x22ok\x22")
    (fun n => if n = 0 then TurnOut.reply "Okay." [⟨"call_1", "echo", []⟩]
              else TurnOut.reply "done." [])
    "hi" hprov HistOK.nil

end Castor
